import Mathlib

/-!
Shallow embedding of the `magnesium` XML scanner
(`src/lib.rs`, `src/attributes.rs`, `src/elements.rs`).

Strings are modelled as `List Char`.  Every Rust byte-index operation that
appears in the source acts on an ASCII delimiter (`=`, quotes, `<`, `>`, `/`,
the literals `<!CDATA[`, `<!--`, `-->`, `]]>`, `<?xml`, `?>`), so the
byte-level slicing of `&str` coincides with character-level slicing here.
Iterator state is the iterator's single field (its remaining text); `next`
returns the emitted item together with the successor state.
-/

set_option maxHeartbeats 1000000

/-- Rust's `char::is_whitespace` (the Unicode White_Space property), the predicate
behind Rust's `str::trim`, `str::trim_start`. -/
def isWs (c : Char) : Bool :=
  let n := c.toNat
  n == 0x09 || n == 0x0A || n == 0x0B || n == 0x0C || n == 0x0D || n == 0x20 ||
  n == 0x85 || n == 0xA0 || n == 0x1680 ||
  (Nat.ble 0x2000 n && Nat.ble n 0x200A) ||
  n == 0x2028 || n == 0x2029 || n == 0x202F || n == 0x205F || n == 0x3000

/-- Rust's `str::trim_start`. -/
def trimStart (s : List Char) : List Char := s.dropWhile isWs

/-- Rust's `str::trim_end`. -/
def trimEnd (s : List Char) : List Char := (s.reverse.dropWhile isWs).reverse

/-- Rust's `str::trim` (both ends). -/
def trim (s : List Char) : List Char := trimEnd (trimStart s)

/-- The single-quote character (written via its code point to keep source
files quote-balanced). -/
def squote : Char := Char.ofNat 39

/-- The double-quote character. -/
def dquote : Char := Char.ofNat 34

/-- Rust's `str::starts_with` on the model: does `s` begin with `p`? -/
def startsWith : List Char → List Char → Bool
  | _, [] => true
  | [], _ :: _ => false
  | c :: cs, p :: ps => c == p && startsWith cs ps

/-- Model of `break_on_first_char` (src/lib.rs lines 99-107): split `input` around the
first occurrence of `c`; the delimiter lands in neither half.  The Rust code
finds the byte index of `c`, splits there, and then skips `c`'s UTF-8 length,
which at the character level is exactly this recursion. -/
def break_on_first_char : List Char → Char → Option (List Char × List Char)
  | [], _ => none
  | x :: xs, c =>
    if x = c then some ([], xs)
    else (break_on_first_char xs c).map fun p => (x :: p.1, p.2)

/-- Model of `break_on_first_str` (src/lib.rs lines 122-131): split `input` around the
first occurrence of the literal `needle`. -/
def break_on_first_str : List Char → List Char → Option (List Char × List Char)
  | [], needle => if startsWith [] needle then some ([], []) else none
  | x :: xs, needle =>
    if startsWith (x :: xs) needle then some ([], (x :: xs).drop needle.length)
    else (break_on_first_str xs needle).map fun p => (x :: p.1, p.2)

/-- Model of `TagAttribute` (src/attributes.rs lines 12-15). -/
structure TagAttribute where
  key : List Char
  value : List Char
deriving DecidableEq

/-- Model of `TagAttributeIterator::new` (src/attributes.rs lines 31-33): the stored
state is the attribute string trimmed at both ends. -/
def TagAttributeIterator.new (attrs : List Char) : List Char := trim attrs

/-- Model of `TagAttributeIterator::next` (src/attributes.rs lines 56-87).  The state is
the iterator's `attrs` field; every failure arm of the source's
clear-and-return-none loop sets the state to `""` and yields `None`. -/
def TagAttributeIterator.next (attrs : List Char) :
    Option TagAttribute × List Char :=
  if attrs.isEmpty then (none, attrs)
  else
    match break_on_first_char attrs '=' with
    | none => (none, [])
    | some (key, rest) =>
      match rest with
      | [] => (none, [])
      | q :: rest2 =>
        if q = squote || q = dquote then
          match break_on_first_char rest2 q with
          | none => (none, [])
          | some (value, rest3) => (some ⟨key, value⟩, trimStart rest3)
        else (none, [])

/-- Repeatedly calling `TagAttributeIterator.next`, collecting the emitted
pairs.  The fuel argument merely bounds the recursion; `next` strictly shrinks
the state, so fuel `= attrs.length` is always enough. -/
def TagAttributeIterator.tokensAux : Nat → List Char → List TagAttribute
  | 0, _ => []
  | f + 1, attrs =>
    match TagAttributeIterator.next attrs with
    | (some ta, rest) => ta :: TagAttributeIterator.tokensAux f rest
    | (none, _) => []

/-- The full pair sequence produced from iterator state `attrs`. -/
def TagAttributeIterator.tokens (attrs : List Char) : List TagAttribute :=
  TagAttributeIterator.tokensAux attrs.length attrs

/-- The `Iterator::find` loop used by `find_by_key`, running on a copy of the
state. -/
def TagAttributeIterator.findAux : Nat → List Char → List Char →
    Option (List Char)
  | 0, _, _ => none
  | f + 1, attrs, key =>
    match TagAttributeIterator.next attrs with
    | (none, _) => none
    | (some ta, rest) =>
      if ta.key = key then some ta.value
      else TagAttributeIterator.findAux f rest key

/-- Model of `TagAttributeIterator::find_by_key` (src/attributes.rs lines 47-49):
`self.clone().find(|ta| ta.key == key).map(|ta| ta.value)`.  The clone shows up
here as the function taking the state by value and returning no new state. -/
def TagAttributeIterator.find_by_key (attrs key : List Char) :
    Option (List Char) :=
  TagAttributeIterator.findAux attrs.length attrs key

/-- Model of `XmlElement` (src/elements.rs lines 5-48). -/
inductive XmlElement where
  | StartTag (name attrs : List Char)
  | EndTag (name : List Char)
  | EmptyTag (name attrs : List Char)
  | Text (t : List Char)
  | Comment (t : List Char)
deriving DecidableEq

/-- Model of `trim_xml_declaration` (src/elements.rs lines 197-205). -/
def trim_xml_declaration (text : List Char) : Option (List Char) :=
  if startsWith (trim text) "<?xml".data then
    (break_on_first_str (trimStart (trim text)) "?>".data).map
      fun p => trimStart p.2
  else some (trim text)

/-- Model of `ElementIterator::new` (src/elements.rs lines 76-79):
`trim_xml_declaration(text).unwrap_or_default()`. -/
def ElementIterator.new (text : List Char) : List Char :=
  (trim_xml_declaration text).getD []

/-- Model of `ElementIterator::next` (src/elements.rs lines 86-131).  The state is the
iterator's `text` field; failure arms of the clear-and-return-none loop clear it. -/
def ElementIterator.next (text : List Char) : Option XmlElement × List Char :=
  if text.isEmpty then (none, text)
  else if startsWith text "<!CDATA[".data then
    match break_on_first_str text "]]>".data with
    | some (cdata, rest) => (some (XmlElement.Text (cdata.drop 8)), rest)
    | none => (none, [])
  else if startsWith text "<!--".data then
    match break_on_first_str text "-->".data with
    | some (comment, rest) => (some (XmlElement.Comment (comment.drop 4)), rest)
    | none => (none, [])
  else if startsWith text "<".data then
    match break_on_first_char text '>' with
    | none => (none, [])
    | some (tagWithLt, rest) =>
      if (tagWithLt.drop 1).getLast? = some '/' then
        (some (XmlElement.EmptyTag
          ((break_on_first_char (tagWithLt.drop 1) ' ').getD
            ((tagWithLt.drop 1).dropLast, ['/'])).1
          ((break_on_first_char (tagWithLt.drop 1) ' ').getD
            ((tagWithLt.drop 1).dropLast, ['/'])).2.dropLast), rest)
      else if startsWith (tagWithLt.drop 1) "/".data then
        (some (XmlElement.EndTag ((tagWithLt.drop 1).drop 1)), rest)
      else
        (some (XmlElement.StartTag
          ((break_on_first_char (tagWithLt.drop 1) ' ').getD
            (tagWithLt.drop 1, [])).1
          ((break_on_first_char (tagWithLt.drop 1) ' ').getD
            (tagWithLt.drop 1, [])).2), rest)
  else
    (some (XmlElement.Text (text.takeWhile (· ≠ '<'))),
      text.dropWhile (· ≠ '<'))

/-- Repeatedly calling `ElementIterator.next`, collecting the emitted tokens;
fuel `= text.length` is always enough because `next` strictly shrinks the
state. -/
def ElementIterator.tokensAux : Nat → List Char → List XmlElement
  | 0, _ => []
  | f + 1, text =>
    match ElementIterator.next text with
    | (some e, rest) => e :: ElementIterator.tokensAux f rest
    | (none, _) => []

/-- The full token sequence produced from iterator state `text`. -/
def ElementIterator.tokens (text : List Char) : List XmlElement :=
  ElementIterator.tokensAux text.length text

/-- Model of `revert_xml_encoding` (src/lib.rs lines 63-92).  The Rust function panics
on an illegal `&` sequence (`unwrap` on a missing char, a failed `assert_eq`,
or the `other` arm); panicking is modelled as `none`. -/
def revert_xml_encoding : List Char → Option (List Char)
  | [] => some []
  | '&' :: 'l' :: 't' :: ';' :: r => (revert_xml_encoding r).map ('<' :: ·)
  | '&' :: 'g' :: 't' :: ';' :: r => (revert_xml_encoding r).map ('>' :: ·)
  | '&' :: 'a' :: 'm' :: 'p' :: ';' :: r => (revert_xml_encoding r).map ('&' :: ·)
  | '&' :: _ => none
  | c :: r => (revert_xml_encoding r).map (c :: ·)

/-- Spec-side characterisation for the escape decoder, following the spec's
words: the input decodes to the output exactly when every `&` begins one of
the three escapes `&lt;` `&gt;` `&amp;`, each replaced by its character, all
other characters copied unchanged. -/
inductive EscapeSpec : List Char → List Char → Prop where
  | nil : EscapeSpec [] []
  | lt (s t : List Char) : EscapeSpec s t →
      EscapeSpec ('&' :: 'l' :: 't' :: ';' :: s) ('<' :: t)
  | gt (s t : List Char) : EscapeSpec s t →
      EscapeSpec ('&' :: 'g' :: 't' :: ';' :: s) ('>' :: t)
  | amp (s t : List Char) : EscapeSpec s t →
      EscapeSpec ('&' :: 'a' :: 'm' :: 'p' :: ';' :: s) ('&' :: t)
  | chr (c : Char) (s t : List Char) : c ≠ '&' → EscapeSpec s t →
      EscapeSpec (c :: s) (c :: t)

/-- Spec-side characterisation of a well-formed attribute string: zero or
more `key=quote value quote` pairs, each followed by whitespace; keys contain
no `=` and no whitespace, values do not contain their own quote character. -/
inductive AttrsRender : List Char → List TagAttribute → Prop where
  | nil : AttrsRender [] []
  | cons (k v : List Char) (q : Char) (ws s : List Char)
      (ps : List TagAttribute) :
      (q = squote ∨ q = dquote) →
      '=' ∉ k → (∀ c ∈ k, isWs c = false) →
      q ∉ v →
      (∀ c ∈ ws, isWs c = true) →
      AttrsRender s ps →
      AttrsRender (k ++ '=' :: q :: (v ++ q :: (ws ++ s)))
        (TagAttribute.mk k v :: ps)

/-! ### Basic lemmas about the split primitives -/

theorem startsWith_iff (s p : List Char) :
    startsWith s p = true ↔ ∃ t, s = p ++ t := by
  induction p generalizing s with
  | nil => simp [startsWith]
  | cons q ps ih =>
    cases s with
    | nil =>
      simp [startsWith]
    | cons c cs =>
      simp only [startsWith, Bool.and_eq_true, beq_iff_eq, ih, List.cons_append,
        List.cons.injEq]
      constructor
      · rintro ⟨rfl, t, rfl⟩
        exact ⟨t, rfl, rfl⟩
      · rintro ⟨t, rfl, rfl⟩
        exact ⟨rfl, t, rfl⟩

theorem break_char_some (s : List Char) (c : Char) (b a : List Char)
    (h : break_on_first_char s c = some (b, a)) : s = b ++ c :: a ∧ c ∉ b := by
  induction s generalizing b with
  | nil => exact absurd h (by simp [break_on_first_char])
  | cons x xs ih =>
    simp only [break_on_first_char] at h
    split at h
    · next hxc =>
      simp only [Option.some.injEq, Prod.mk.injEq] at h
      obtain ⟨rfl, rfl⟩ := h
      subst hxc
      simp
    · next hxc =>
      rw [Option.map_eq_some'] at h
      obtain ⟨⟨b', a'⟩, hba, heq⟩ := h
      simp only [Prod.mk.injEq] at heq
      obtain ⟨rfl, rfl⟩ := heq
      obtain ⟨rfl, hnb⟩ := ih b' hba
      refine ⟨rfl, ?_⟩
      simp only [List.mem_cons, not_or]
      exact ⟨fun h => hxc h.symm, hnb⟩

theorem break_char_append (b : List Char) (c : Char) (a : List Char)
    (hnb : c ∉ b) : break_on_first_char (b ++ c :: a) c = some (b, a) := by
  induction b with
  | nil => simp [break_on_first_char]
  | cons y b' ih =>
    simp only [List.mem_cons, not_or] at hnb
    have hyc : ¬ (y = c) := fun h => hnb.1 h.symm
    simp only [List.cons_append, break_on_first_char, if_neg hyc,
      List.append_eq, ih hnb.2, Option.map_some']

theorem break_char_some_iff (s : List Char) (c : Char) (b a : List Char) :
    break_on_first_char s c = some (b, a) ↔ s = b ++ c :: a ∧ c ∉ b := by
  constructor
  · exact break_char_some s c b a
  · rintro ⟨rfl, hnb⟩
    exact break_char_append b c a hnb

theorem break_char_none_iff (s : List Char) (c : Char) :
    break_on_first_char s c = none ↔ c ∉ s := by
  induction s with
  | nil => simp [break_on_first_char]
  | cons x xs ih =>
    by_cases hx : x = c
    · subst hx
      simp [break_on_first_char]
    · simp only [break_on_first_char, if_neg hx, Option.map_eq_none', ih,
        List.mem_cons, not_or]
      constructor
      · intro h
        exact ⟨fun hc => hx hc.symm, h⟩
      · exact fun h => h.2

theorem break_str_some (s n b a : List Char)
    (h : break_on_first_str s n = some (b, a)) : s = b ++ n ++ a := by
  induction s generalizing b with
  | nil =>
    unfold break_on_first_str at h
    split at h
    · next hsw =>
      simp only [Option.some.injEq, Prod.mk.injEq] at h
      obtain ⟨rfl, rfl⟩ := h
      obtain ⟨t, ht⟩ := (startsWith_iff _ _).mp hsw
      obtain ⟨rfl, rfl⟩ := List.append_eq_nil.mp ht.symm
      rfl
    · exact absurd h (by simp)
  | cons x xs ih =>
    unfold break_on_first_str at h
    split at h
    · next hsw =>
      simp only [Option.some.injEq, Prod.mk.injEq] at h
      obtain ⟨rfl, rfl⟩ := h
      obtain ⟨t, ht⟩ := (startsWith_iff _ _).mp hsw
      rw [ht, List.drop_left]
      simp
    · rw [Option.map_eq_some'] at h
      obtain ⟨⟨b', a'⟩, hba, heq⟩ := h
      simp only [Prod.mk.injEq] at heq
      obtain ⟨rfl, rfl⟩ := heq
      have := ih b' hba
      simp [this, List.append_assoc]

theorem break_str_none_iff_ex (s n : List Char) :
    break_on_first_str s n = none ↔ ¬ ∃ u v, s = u ++ n ++ v := by
  induction s with
  | nil =>
    unfold break_on_first_str
    constructor
    · intro h
      rintro ⟨u, v, huv⟩
      obtain ⟨h1, rfl⟩ := List.append_eq_nil.mp huv.symm
      obtain ⟨rfl, rfl⟩ := List.append_eq_nil.mp h1
      simp [startsWith] at h
    · intro h
      rw [if_neg]
      intro hsw
      obtain ⟨t, ht⟩ := (startsWith_iff _ _).mp hsw
      obtain ⟨rfl, rfl⟩ := List.append_eq_nil.mp ht.symm
      exact h ⟨[], [], rfl⟩
  | cons x xs ih =>
    unfold break_on_first_str
    constructor
    · intro hnone
      rintro ⟨u, v, huv⟩
      split at hnone
      · exact absurd hnone (by simp)
      · next hsw =>
        rw [Option.map_eq_none'] at hnone
        cases u with
        | nil =>
          exact hsw ((startsWith_iff _ _).mpr ⟨v, by simpa using huv⟩)
        | cons u0 u' =>
          apply ih.mp hnone
          refine ⟨u', v, ?_⟩
          simp only [List.cons_append, List.cons.injEq] at huv
          exact huv.2
    · intro h
      rw [if_neg, Option.map_eq_none', ih]
      · rintro ⟨u, v, huv⟩
        exact h ⟨x :: u, v, by simp [huv]⟩
      · intro hsw
        obtain ⟨t, ht⟩ := (startsWith_iff _ _).mp hsw
        exact h ⟨[], t, by simpa using ht⟩

theorem break_str_none_iff (s n : List Char) :
    break_on_first_str s n = none ↔ ¬ (n <:+: s) := by
  rw [break_str_none_iff_ex]
  constructor
  · intro h hin
    obtain ⟨u, v, huv⟩ := hin
    exact h ⟨u, v, huv.symm⟩
  · intro h
    rintro ⟨u, v, huv⟩
    exact h ⟨u, v, huv.symm⟩

/-! ### Lemmas about trimming -/

theorem dropWhile_idem (p : Char → Bool) (l : List Char) :
    (l.dropWhile p).dropWhile p = l.dropWhile p := by
  induction l with
  | nil => rfl
  | cons x xs ih =>
    by_cases hx : p x = true
    · simp [List.dropWhile_cons, hx, ih]
    · simp [List.dropWhile_cons, hx]

theorem dropWhile_head_false (p : Char → Bool) (l : List Char) (c : Char)
    (t : List Char) (h : l.dropWhile p = c :: t) : p c = false := by
  induction l with
  | nil => simp at h
  | cons x xs ih =>
    by_cases hx : p x = true
    · rw [List.dropWhile_cons, if_pos hx] at h
      exact ih h
    · rw [List.dropWhile_cons, if_neg hx] at h
      injection h with h1 h2
      subst h1
      simpa using hx

theorem trimStart_trimStart (s : List Char) :
    trimStart (trimStart s) = trimStart s := dropWhile_idem isWs s

theorem trimStart_append_ws (ws s : List Char)
    (h : ∀ c ∈ ws, isWs c = true) : trimStart (ws ++ s) = trimStart s := by
  induction ws with
  | nil => rfl
  | cons x xs ih =>
    have hx : isWs x = true := h x (List.mem_cons_self x xs)
    have hxs : ∀ c ∈ xs, isWs c = true :=
      fun c hc => h c (List.mem_cons_of_mem x hc)
    simp only [List.cons_append, trimStart, List.dropWhile_cons, hx, if_true]
    exact ih hxs

theorem trimStart_eq_self_of_head (s : List Char)
    (h : ∀ c t, s = c :: t → isWs c = false) : trimStart s = s := by
  cases s with
  | nil => rfl
  | cons x xs =>
    rw [trimStart, List.dropWhile_cons, if_neg]
    simp [h x xs rfl]

theorem length_trimStart_le (s : List Char) :
    (trimStart s).length ≤ s.length :=
  (List.dropWhile_suffix isWs).length_le

theorem trimEnd_decomp (s : List Char) :
    ∃ ws, s = trimEnd s ++ ws ∧ ∀ c ∈ ws, isWs c = true := by
  refine ⟨(s.reverse.takeWhile isWs).reverse, ?_, ?_⟩
  · show s = (s.reverse.dropWhile isWs).reverse ++
      (s.reverse.takeWhile isWs).reverse
    rw [← List.reverse_append, List.takeWhile_append_dropWhile,
      List.reverse_reverse]
  · intro c hc
    rw [List.mem_reverse] at hc
    exact List.mem_takeWhile_imp hc

theorem trimEnd_eq_self (s : List Char)
    (h : ∀ c, s.getLast? = some c → isWs c = false) : trimEnd s = s := by
  cases hs : s.reverse with
  | nil =>
    have hnil : s = [] := by simpa using congrArg List.reverse hs
    subst hnil
    rfl
  | cons x xs =>
    have hx : isWs x = false := by
      apply h
      rw [List.getLast?_eq_head?_reverse, hs]
      rfl
    have hfix : List.dropWhile isWs s.reverse = s.reverse := by
      rw [hs, List.dropWhile_cons, if_neg (by simp [hx])]
    rw [trimEnd, hfix, List.reverse_reverse]

theorem getLast_trimEnd_false (s : List Char) (c : Char)
    (h : (trimEnd s).getLast? = some c) : isWs c = false := by
  rw [trimEnd, List.getLast?_eq_head?_reverse, List.reverse_reverse] at h
  cases hdw : s.reverse.dropWhile isWs with
  | nil => rw [hdw] at h; exact absurd h (by simp)
  | cons d t =>
    rw [hdw] at h
    simp only [List.head?_cons, Option.some.injEq] at h
    obtain rfl : d = c := h
    exact dropWhile_head_false isWs s.reverse _ t hdw

theorem trimStart_trim (s : List Char) : trimStart (trim s) = trim s := by
  cases hte : trimEnd (trimStart s) with
  | nil =>
    show trimStart (trimEnd (trimStart s)) = trimEnd (trimStart s)
    rw [hte]
    rfl
  | cons c t =>
    obtain ⟨ws, hdec, hws⟩ := trimEnd_decomp (trimStart s)
    rw [hte] at hdec
    have hc : isWs c = false := by
      apply dropWhile_head_false isWs s c (t ++ ws)
      rw [List.cons_append] at hdec
      simpa only [trimStart] using hdec
    show trimStart (trimEnd (trimStart s)) = trimEnd (trimStart s)
    rw [hte, trimStart, List.dropWhile_cons, if_neg (by simp [hc])]

theorem trimEnd_trimEnd (s : List Char) : trimEnd (trimEnd s) = trimEnd s := by
  show ((trimEnd s).reverse.dropWhile isWs).reverse = trimEnd s
  rw [trimEnd, List.reverse_reverse, dropWhile_idem]

theorem trim_idem (s : List Char) : trim (trim s) = trim s := by
  show trimEnd (trimStart (trim s)) = trim s
  rw [trimStart_trim]
  show trimEnd (trimEnd (trimStart s)) = trim s
  rw [trimEnd_trimEnd]
  rfl

theorem getLast_trim_false (s : List Char) (c : Char)
    (h : (trim s).getLast? = some c) : isWs c = false :=
  getLast_trimEnd_false (trimStart s) c h

/-! ### The scanners strictly consume input -/

theorem attr_next_none_inv (attrs rest : List Char)
    (h : TagAttributeIterator.next attrs = (none, rest)) : rest = [] := by
  unfold TagAttributeIterator.next at h
  split at h
  · next he =>
    simp only [Prod.mk.injEq] at h
    rw [← h.2]
    exact List.isEmpty_iff.mp he
  · split at h
    · simp only [Prod.mk.injEq] at h
      exact h.2.symm
    · split at h
      · simp only [Prod.mk.injEq] at h
        exact h.2.symm
      · split at h
        · split at h
          · simp only [Prod.mk.injEq] at h
            exact h.2.symm
          · simp at h
        · simp only [Prod.mk.injEq] at h
          exact h.2.symm

theorem attr_next_none_snd (attrs : List Char)
    (h : (TagAttributeIterator.next attrs).1 = none) :
    (TagAttributeIterator.next attrs).2 = [] := by
  cases hnext : TagAttributeIterator.next attrs with
  | mk o rest =>
    cases o with
    | none => simpa using attr_next_none_inv attrs rest hnext
    | some ta => rw [hnext] at h; simp at h

theorem attr_next_some_shape (attrs : List Char) (ta : TagAttribute)
    (rest : List Char)
    (h : TagAttributeIterator.next attrs = (some ta, rest)) :
    ∃ q rest3,
      attrs = ta.key ++ '=' :: q :: (ta.value ++ q :: rest3) ∧
      rest = trimStart rest3 ∧ (q = squote ∨ q = dquote) ∧
      '=' ∉ ta.key ∧ q ∉ ta.value := by
  unfold TagAttributeIterator.next at h
  split at h
  · simp at h
  · split at h
    · simp at h
    · next key rest1 heq1 =>
      split at h
      · simp at h
      · next q rest2 =>
        split at h
        · next hqcond =>
          split at h
          · simp at h
          · next value rest3 heq2 =>
            simp only [Prod.mk.injEq, Option.some.injEq] at h
            obtain ⟨rfl, rfl⟩ := h
            obtain ⟨h1, hk⟩ := break_char_some _ _ _ _ heq1
            obtain ⟨h2, hv⟩ := break_char_some _ _ _ _ heq2
            have hq : q = squote ∨ q = dquote := by
              simpa using hqcond
            refine ⟨q, rest3, ?_, rfl, hq, hk, hv⟩
            rw [h1, h2]
        · simp at h

theorem attr_next_shrinks (attrs : List Char) (ta : TagAttribute)
    (rest : List Char)
    (h : TagAttributeIterator.next attrs = (some ta, rest)) :
    rest.length < attrs.length := by
  obtain ⟨q, rest3, hattrs, hrest, -, -, -⟩ :=
    attr_next_some_shape attrs ta rest h
  have h3 : (trimStart rest3).length ≤ rest3.length := length_trimStart_le rest3
  subst hrest
  rw [hattrs]
  simp only [List.length_append, List.length_cons]
  omega

theorem attr_tokensAux_nil (f : Nat) :
    TagAttributeIterator.tokensAux f [] = [] := by
  cases f with
  | zero => rfl
  | succ f => simp [TagAttributeIterator.tokensAux, TagAttributeIterator.next]

theorem attr_tokensAux_stable (f : Nat) : ∀ (g : Nat) (s : List Char),
    s.length ≤ f → s.length ≤ g →
    TagAttributeIterator.tokensAux f s = TagAttributeIterator.tokensAux g s := by
  induction f with
  | zero =>
    intro g s hf hg
    have : s = [] := List.eq_nil_of_length_eq_zero (Nat.le_zero.mp hf)
    subst this
    rw [attr_tokensAux_nil, attr_tokensAux_nil]
  | succ f ih =>
    intro g s hf hg
    cases s with
    | nil => rw [attr_tokensAux_nil, attr_tokensAux_nil]
    | cons x xs =>
      cases g with
      | zero => simp at hg
      | succ g =>
        show TagAttributeIterator.tokensAux (f + 1) (x :: xs) =
          TagAttributeIterator.tokensAux (g + 1) (x :: xs)
        unfold TagAttributeIterator.tokensAux
        cases hnext : TagAttributeIterator.next (x :: xs) with
        | mk o rest =>
          cases o with
          | none => simp
          | some ta =>
            have hlt := attr_next_shrinks _ _ _ hnext
            simp only [List.length_cons] at hlt hf hg
            simp only
            rw [ih g rest (by omega) (by omega)]

theorem attr_tokensAux_succ (f : Nat) (s : List Char) :
    TagAttributeIterator.tokensAux (f + 1) s =
      match TagAttributeIterator.next s with
      | (some ta, rest) => ta :: TagAttributeIterator.tokensAux f rest
      | (none, _) => [] := rfl

theorem attr_tokens_cons (attrs : List Char) (ta : TagAttribute)
    (rest : List Char)
    (h : TagAttributeIterator.next attrs = (some ta, rest)) :
    TagAttributeIterator.tokens attrs = ta :: TagAttributeIterator.tokens rest := by
  have hlt := attr_next_shrinks _ _ _ h
  cases hl : attrs.length with
  | zero => exact absurd hlt (by omega)
  | succ n =>
    rw [TagAttributeIterator.tokens, TagAttributeIterator.tokens, hl,
      attr_tokensAux_succ, h]
    show ta :: TagAttributeIterator.tokensAux n rest =
      ta :: TagAttributeIterator.tokensAux rest.length rest
    rw [attr_tokensAux_stable n rest.length rest (by omega) (le_refl _)]

theorem elem_next_none_inv (text rest : List Char)
    (h : ElementIterator.next text = (none, rest)) : rest = [] := by
  unfold ElementIterator.next at h
  split at h
  · next he =>
    simp only [Prod.mk.injEq] at h
    rw [← h.2]
    exact List.isEmpty_iff.mp he
  · split at h
    · split at h
      · simp at h
      · simp only [Prod.mk.injEq] at h
        exact h.2.symm
    · split at h
      · split at h
        · simp at h
        · simp only [Prod.mk.injEq] at h
          exact h.2.symm
      · split at h
        · split at h
          · simp only [Prod.mk.injEq] at h
            exact h.2.symm
          · split at h
            · simp at h
            · split at h
              · simp at h
              · simp at h
        · simp at h

theorem elem_next_shrinks (text : List Char) (e : XmlElement)
    (rest : List Char) (h : ElementIterator.next text = (some e, rest)) :
    rest.length < text.length := by
  unfold ElementIterator.next at h
  split at h
  · simp at h
  · next hne =>
    split at h
    · split at h
      · next cdata rest2 heq2 =>
        simp only [Prod.mk.injEq, Option.some.injEq] at h
        obtain ⟨-, rfl⟩ := h
        have hdec := break_str_some _ _ _ _ heq2
        have h3 : ("]]>".data).length = 3 := rfl
        rw [hdec]
        simp only [List.length_append, h3]
        omega
      · simp at h
    · split at h
      · split at h
        · next comment rest2 heq2 =>
          simp only [Prod.mk.injEq, Option.some.injEq] at h
          obtain ⟨-, rfl⟩ := h
          have hdec := break_str_some _ _ _ _ heq2
          have h3 : ("-->".data).length = 3 := rfl
          rw [hdec]
          simp only [List.length_append, h3]
          omega
        · simp at h
      · split at h
        · split at h
          · simp at h
          · next tagWithLt rest2 heq2 =>
            obtain ⟨hdec, -⟩ := break_char_some _ _ _ _ heq2
            have hr : rest = rest2 := by
              split at h
              · simp only [Prod.mk.injEq, Option.some.injEq] at h
                exact h.2.symm
              · split at h
                · simp only [Prod.mk.injEq, Option.some.injEq] at h
                  exact h.2.symm
                · simp only [Prod.mk.injEq, Option.some.injEq] at h
                  exact h.2.symm
            subst hr
            rw [hdec]
            simp only [List.length_append, List.length_cons]
            omega
        · next hlt =>
          simp only [Prod.mk.injEq, Option.some.injEq] at h
          obtain ⟨-, rfl⟩ := h
          cases text with
          | nil => simp at hne
          | cons x xs =>
            have hx : ¬ (x = '<') := by
              intro hxe
              subst hxe
              exact hlt (by simp [startsWith])
            rw [List.dropWhile_cons, if_pos (by simp [hx])]
            have hsfx :=
              (List.dropWhile_suffix (l := xs)
                (fun x => decide (x ≠ '<'))).length_le
            simp only [List.length_cons]
            omega

theorem elem_next_nil : ElementIterator.next [] = (none, []) := rfl

theorem attr_next_nil : TagAttributeIterator.next [] = (none, []) := rfl

theorem elem_tokensAux_nil (f : Nat) :
    ElementIterator.tokensAux f [] = [] := by
  cases f with
  | zero => rfl
  | succ f => simp [ElementIterator.tokensAux, elem_next_nil]

theorem elem_tokensAux_succ (f : Nat) (s : List Char) :
    ElementIterator.tokensAux (f + 1) s =
      match ElementIterator.next s with
      | (some e, rest) => e :: ElementIterator.tokensAux f rest
      | (none, _) => [] := rfl

theorem elem_tokensAux_stable (f : Nat) : ∀ (g : Nat) (s : List Char),
    s.length ≤ f → s.length ≤ g →
    ElementIterator.tokensAux f s = ElementIterator.tokensAux g s := by
  induction f with
  | zero =>
    intro g s hf hg
    have : s = [] := List.eq_nil_of_length_eq_zero (Nat.le_zero.mp hf)
    subst this
    rw [elem_tokensAux_nil, elem_tokensAux_nil]
  | succ f ih =>
    intro g s hf hg
    cases s with
    | nil => rw [elem_tokensAux_nil, elem_tokensAux_nil]
    | cons x xs =>
      cases g with
      | zero => simp at hg
      | succ g =>
        rw [elem_tokensAux_succ, elem_tokensAux_succ]
        cases hnext : ElementIterator.next (x :: xs) with
        | mk o rest =>
          cases o with
          | none => simp
          | some e =>
            have hlt := elem_next_shrinks _ _ _ hnext
            simp only [List.length_cons] at hlt hf hg
            simp only
            rw [ih g rest (by omega) (by omega)]

theorem elem_tokens_cons (text : List Char) (e : XmlElement)
    (rest : List Char)
    (h : ElementIterator.next text = (some e, rest)) :
    ElementIterator.tokens text = e :: ElementIterator.tokens rest := by
  have hlt := elem_next_shrinks _ _ _ h
  cases hl : text.length with
  | zero => exact absurd hlt (by omega)
  | succ n =>
    rw [ElementIterator.tokens, ElementIterator.tokens, hl,
      elem_tokensAux_succ, h]
    show e :: ElementIterator.tokensAux n rest =
      e :: ElementIterator.tokensAux rest.length rest
    rw [elem_tokensAux_stable n rest.length rest (by omega) (le_refl _)]

theorem elem_tokens_none (text : List Char)
    (h : (ElementIterator.next text).1 = none) :
    ElementIterator.tokens text = [] := by
  cases hl : text.length with
  | zero =>
    have : text = [] := List.eq_nil_of_length_eq_zero hl
    subst this
    rfl
  | succ n =>
    rw [ElementIterator.tokens, hl, elem_tokensAux_succ]
    cases hnext : ElementIterator.next text with
    | mk o rest =>
      cases o with
      | none => simp
      | some e => rw [hnext] at h; simp at h

theorem elem_tokensAux_length (f : Nat) : ∀ (s : List Char),
    (ElementIterator.tokensAux f s).length ≤ f := by
  induction f with
  | zero =>
    intro s
    simp [ElementIterator.tokensAux]
  | succ f ih =>
    intro s
    rw [elem_tokensAux_succ]
    cases hnext : ElementIterator.next s with
    | mk o rest =>
      cases o with
      | none => simp
      | some e =>
        simp only [List.length_cons]
        have := ih rest
        omega

theorem elem_next_none_snd (text : List Char)
    (h : (ElementIterator.next text).1 = none) :
    (ElementIterator.next text).2 = [] := by
  cases hnext : ElementIterator.next text with
  | mk o rest =>
    cases o with
    | none => simpa using elem_next_none_inv text rest hnext
    | some e => rw [hnext] at h; simp at h

/-! ### Claim theorems -/

/-- C2: both scanners are fused fail-stop iterators: whenever a call to
`next` yields `none` — by exhaustion or by hitting an unparseable construct —
the remaining text afterwards is empty, and `next` on empty remaining text
yields `none` with empty remaining text again, so every subsequent call also
returns `none`. -/
theorem C2_fail_stop_fused :
    (∀ s, (ElementIterator.next s).1 = none →
      (ElementIterator.next s).2 = []) ∧
    (∀ s, (TagAttributeIterator.next s).1 = none →
      (TagAttributeIterator.next s).2 = []) ∧
    ElementIterator.next [] = (none, []) ∧
    TagAttributeIterator.next [] = (none, []) :=
  ⟨elem_next_none_snd, attr_next_none_snd, rfl, rfl⟩

/-- Witness for C2 at the unterminated tag `"<a"` and the quoteless attribute
string `"x"`. -/
theorem C2_fail_stop_fused_witness :
    (ElementIterator.next "<a".data).2 = [] ∧
    (TagAttributeIterator.next "x".data).2 = [] :=
  ⟨C2_fail_stop_fused.1 "<a".data (by decide),
   C2_fail_stop_fused.2.1 "x".data (by decide)⟩

/-- C6: `break_on_first_char s c` returns `some (before, after)` exactly when
`c` occurs in `s`, with `s = before ++ [c] ++ after` and `c` absent from
`before` (so `c` is excluded from both halves and `before` is the prefix up to
the first occurrence); it returns `none` exactly when `c` does not occur.
At the character level this captures the byte-level code, which skips
exactly the encoded length of `c`. -/
theorem C6_break_on_first_char_spec :
    ∀ (s : List Char) (c : Char) (b a : List Char),
      (break_on_first_char s c = some (b, a) ↔ s = b ++ c :: a ∧ c ∉ b) ∧
      (break_on_first_char s c = none ↔ c ∉ s) :=
  fun s c b a => ⟨break_char_some_iff s c b a, break_char_none_iff s c⟩

/-- C9: the element scanner is finite: every `next` call that emits a token
strictly shrinks the remaining text, and the token sequence of a buffer of
`n` characters has at most `n` tokens. -/
theorem C9_element_iterator_finite :
    (∀ (s : List Char) (e : XmlElement) (rest : List Char),
      ElementIterator.next s = (some e, rest) → rest.length < s.length) ∧
    (∀ s : List Char, (ElementIterator.tokens s).length ≤ s.length) :=
  ⟨elem_next_shrinks, fun s => elem_tokensAux_length s.length s⟩

/-- Witness for C9 at the buffer `"<a>"`. -/
theorem C9_element_iterator_finite_witness :
    ([] : List Char).length < ("<a>".data).length ∧
    (ElementIterator.tokens "<a>".data).length ≤ ("<a>".data).length :=
  ⟨C9_element_iterator_finite.1 "<a>".data
      (XmlElement.StartTag "a".data []) [] (by decide),
   C9_element_iterator_finite.2 "<a>".data⟩

/-- C10: `ElementIterator::new` trims the whole buffer, declaration or not:
construction over any buffer equals construction over the fully trimmed
buffer; without a leading `<?xml` the initial state is exactly the trimmed
buffer; and scanning `"a "` yields `Text "a"`, not `Text "a "`. -/
theorem C10_new_trims_whole_buffer :
    (∀ s, ElementIterator.new s = ElementIterator.new (trim s)) ∧
    (∀ s, startsWith (trim s) "<?xml".data = false →
      ElementIterator.new s = trim s) ∧
    ElementIterator.tokens (ElementIterator.new "a ".data) =
      [XmlElement.Text "a".data] := by
  refine ⟨?_, ?_, by decide⟩
  · intro s
    unfold ElementIterator.new trim_xml_declaration
    rw [trim_idem]
  · intro s h
    unfold ElementIterator.new trim_xml_declaration
    rw [if_neg (by simp [h])]
    rfl

/-- Witness for C10 at the buffer `"a "`. -/
theorem C10_new_trims_whole_buffer_witness :
    ElementIterator.new "a ".data = trim "a ".data :=
  C10_new_trims_whole_buffer.2.1 "a ".data (by decide)

/-- C4: a buffer whose trimmed text starts with `<?xml` but has no closing
`?>` makes the fallible declaration-trimming step return `none`, and the
infallible `ElementIterator::new` fall back to the empty scanner, which
yields zero tokens. -/
theorem C4_unterminated_declaration (s : List Char)
    (h1 : startsWith (trim s) "<?xml".data = true)
    (h2 : ¬ ("?>".data <:+: trim s)) :
    trim_xml_declaration s = none ∧ ElementIterator.new s = [] ∧
    ElementIterator.tokens (ElementIterator.new s) = [] := by
  have hb : break_on_first_str (trimStart (trim s)) "?>".data = none := by
    rw [trimStart_trim]
    exact (break_str_none_iff _ _).mpr h2
  have hd : trim_xml_declaration s = none := by
    unfold trim_xml_declaration
    rw [if_pos h1, hb]
    rfl
  have hn : ElementIterator.new s = [] := by
    unfold ElementIterator.new
    rw [hd]
    rfl
  exact ⟨hd, hn, by rw [hn]; rfl⟩

/-- Witness for C4 at the buffer `"<?xml"`. -/
theorem C4_unterminated_declaration_witness :
    trim_xml_declaration "<?xml".data = none ∧
    ElementIterator.new "<?xml".data = [] ∧
    ElementIterator.tokens (ElementIterator.new "<?xml".data) = [] :=
  C4_unterminated_declaration "<?xml".data (by decide) (by decide)

/-- C3 as stated is false: the buffer `"<?xml?><?xml?><a>"` begins with the
well-formed declaration `"<?xml?>"`, but scanning the whole buffer yields
`[StartTag "?xml?" "", StartTag "a" ""]` while scanning the buffer with the
declaration removed re-strips the second `"<?xml?>"` and yields only
`[StartTag "a" ""]`. -/
theorem C3_counterexample :
    startsWith (trim "<?xml?><?xml?><a>".data) "<?xml".data = true ∧
    break_on_first_str (trimStart (trim "<?xml?><?xml?><a>".data)) "?>".data =
      some ("<?xml".data, "<?xml?><a>".data) ∧
    ElementIterator.tokens (ElementIterator.new "<?xml?><?xml?><a>".data) ≠
      ElementIterator.tokens (ElementIterator.new "<?xml?><a>".data) := by
  decide

/-- C3 amended: if the buffer's trimmed text begins with `<?xml` and contains
a closing `?>` (splitting it into declaration `d` and remainder `r`), and the
remainder does not itself begin, after leading whitespace, with `<?xml`, then
scanning the whole buffer gives exactly the token sequence of scanning the
remainder. -/
theorem C3_declaration_stripping_amended (s d r : List Char)
    (h1 : startsWith (trim s) "<?xml".data = true)
    (h2 : break_on_first_str (trimStart (trim s)) "?>".data = some (d, r))
    (h3 : startsWith (trimStart r) "<?xml".data = false) :
    ElementIterator.tokens (ElementIterator.new s) =
      ElementIterator.tokens (ElementIterator.new r) := by
  have hdec0 := break_str_some _ _ _ _ h2
  rw [trimStart_trim] at hdec0
  have hlast : ∀ c, (trimStart r).getLast? = some c → isWs c = false := by
    intro c hc
    have hr : r.getLast? = some c := by
      have hrdec : List.takeWhile isWs r ++ trimStart r = r :=
        List.takeWhile_append_dropWhile isWs r
      rw [← hrdec, List.getLast?_append, hc]
      rfl
    have hslast : (trim s).getLast? = some c := by
      rw [hdec0, List.getLast?_append, hr]
      rfl
    exact getLast_trim_false s c hslast
  have htrimr : trim r = trimStart r := trimEnd_eq_self (trimStart r) hlast
  have hnews : ElementIterator.new s = trimStart r := by
    unfold ElementIterator.new trim_xml_declaration
    rw [if_pos h1, h2]
    rfl
  have hnewr : ElementIterator.new r = trimStart r := by
    have hcond : startsWith (trim r) "<?xml".data = false := by
      rw [htrimr]
      exact h3
    unfold ElementIterator.new trim_xml_declaration
    rw [if_neg (by simp [hcond])]
    simpa using htrimr
  rw [hnews, hnewr]

/-- Witness for the amended C3 at `"<?xml?><a>"`. -/
theorem C3_declaration_stripping_amended_witness :
    ElementIterator.tokens (ElementIterator.new "<?xml?><a>".data) =
      ElementIterator.tokens (ElementIterator.new "<a>".data) :=
  C3_declaration_stripping_amended "<?xml?><a>".data "<?xml".data "<a>".data
    (by decide) (by decide) (by decide)

theorem elem_next_tag (tt rest : List Char)
    (hcd : startsWith ('<' :: (tt ++ '>' :: rest)) "<!CDATA[".data = false)
    (hcm : startsWith ('<' :: (tt ++ '>' :: rest)) "<!--".data = false)
    (hgt : '>' ∉ tt) :
    ElementIterator.next ('<' :: (tt ++ '>' :: rest)) =
      (if tt.getLast? = some '/' then
        (some (XmlElement.EmptyTag
          ((break_on_first_char tt ' ').getD (tt.dropLast, ['/'])).1
          ((break_on_first_char tt ' ').getD (tt.dropLast, ['/'])).2.dropLast),
          rest)
      else if startsWith tt "/".data then
        (some (XmlElement.EndTag (tt.drop 1)), rest)
      else
        (some (XmlElement.StartTag
          ((break_on_first_char tt ' ').getD (tt, [])).1
          ((break_on_first_char tt ' ').getD (tt, [])).2), rest)) := by
  have hbreak : break_on_first_char ('<' :: (tt ++ '>' :: rest)) '>' =
      some ('<' :: tt, rest) := by
    have hshape : ('<' :: tt) ++ '>' :: rest = '<' :: (tt ++ '>' :: rest) := by
      simp
    rw [← hshape]
    apply break_char_append
    simp only [List.mem_cons, not_or]
    exact ⟨by decide, hgt⟩
  unfold ElementIterator.next
  rw [if_neg (by simp), if_neg (by simp [hcd]), if_neg (by simp [hcm]),
    if_pos (by simp [startsWith]), hbreak]
  rfl

/-- C7: scanning `"<apientry/>"` yields exactly the one token
`EmptyTag "apientry" ""`; in general, for a tag whose `tag_text` ends in `/`
(and which is not a CDATA/comment form and has no other `>`), if `tag_text`
has no space the token is `EmptyTag` with name `tag_text` minus its trailing
`/` and empty attrs, and if a space splits `tag_text` into `(name, attrs)`
the token is `EmptyTag` with that name and `attrs` minus its own trailing
character `/`. -/
theorem C7_self_closing_tag :
    ElementIterator.tokens (ElementIterator.new "<apientry/>".data) =
      [XmlElement.EmptyTag "apientry".data []] ∧
    (∀ tt rest : List Char,
      startsWith ('<' :: (tt ++ '>' :: rest)) "<!CDATA[".data = false →
      startsWith ('<' :: (tt ++ '>' :: rest)) "<!--".data = false →
      '>' ∉ tt → tt.getLast? = some '/' →
      break_on_first_char tt ' ' = none →
      ElementIterator.next ('<' :: (tt ++ '>' :: rest)) =
        (some (XmlElement.EmptyTag tt.dropLast []), rest)) ∧
    (∀ tt n a rest : List Char,
      startsWith ('<' :: (tt ++ '>' :: rest)) "<!CDATA[".data = false →
      startsWith ('<' :: (tt ++ '>' :: rest)) "<!--".data = false →
      '>' ∉ tt → tt.getLast? = some '/' →
      break_on_first_char tt ' ' = some (n, a) →
      ElementIterator.next ('<' :: (tt ++ '>' :: rest)) =
        (some (XmlElement.EmptyTag n a.dropLast), rest)) := by
  refine ⟨by decide, ?_, ?_⟩
  · intro tt rest hcd hcm hgt hsl hsp
    rw [elem_next_tag tt rest hcd hcm hgt, if_pos hsl, hsp]
    rfl
  · intro tt n a rest hcd hcm hgt hsl hsp
    rw [elem_next_tag tt rest hcd hcm hgt, if_pos hsl, hsp]
    rfl

/-- Witness for C7's general clauses at the tags `<apientry/>` and `<e x/>`. -/
theorem C7_self_closing_tag_witness :
    ElementIterator.next ('<' :: ("apientry/".data ++ '>' :: [])) =
      (some (XmlElement.EmptyTag ("apientry/".data).dropLast []), []) ∧
    ElementIterator.next ('<' :: ("e x/".data ++ '>' :: [])) =
      (some (XmlElement.EmptyTag "e".data ("x/".data).dropLast), []) :=
  ⟨C7_self_closing_tag.2.1 "apientry/".data [] (by decide) (by decide)
      (by decide) (by decide) (by decide),
   C7_self_closing_tag.2.2 "e x/".data "e".data "x/".data [] (by decide)
      (by decide) (by decide) (by decide) (by decide)⟩

theorem findAux_spec (f : Nat) : ∀ (s k : List Char),
    TagAttributeIterator.findAux f s k =
      (List.find? (fun ta => ta.key == k)
        (TagAttributeIterator.tokensAux f s)).map TagAttribute.value := by
  induction f with
  | zero => intro s k; rfl
  | succ f ih =>
    intro s k
    show (match TagAttributeIterator.next s with
      | (none, _) => none
      | (some ta, rest) =>
        if ta.key = k then some ta.value
        else TagAttributeIterator.findAux f rest k) = _
    rw [attr_tokensAux_succ]
    cases hnext : TagAttributeIterator.next s with
    | mk o rest =>
      cases o with
      | none => simp
      | some ta =>
        simp only [List.find?_cons]
        by_cases hk : ta.key = k
        · simp [hk]
        · have hbk : (ta.key == k) = false := by
            simp [hk]
          simp only [hbk, if_neg hk]
          exact ih rest k

/-- C8: `find_by_key` takes the scanner state by value (modelling the
`self.clone()` of the source, so the scanner itself is left unchanged) and
returns the value of the first pair in the scanner's pair sequence whose key
equals the requested key, or `none` when no pair has that key. -/
theorem C8_find_by_key_first_match :
    ∀ (s k : List Char),
      TagAttributeIterator.find_by_key s k =
        (List.find? (fun ta => ta.key == k)
          (TagAttributeIterator.tokens s)).map TagAttribute.value :=
  fun s k => findAux_spec s.length s k

theorem revert_sound (s : List Char) :
    ∀ t, revert_xml_encoding s = some t → EscapeSpec s t := by
  induction s using revert_xml_encoding.induct with
  | case1 =>
    intro t h
    rw [revert_xml_encoding.eq_1] at h
    obtain rfl : ([] : List Char) = t := by simpa using h
    exact EscapeSpec.nil
  | case2 r ih =>
    intro t h
    rw [revert_xml_encoding.eq_2] at h
    rw [Option.map_eq_some'] at h
    obtain ⟨t', ht', rfl⟩ := h
    exact EscapeSpec.lt r t' (ih t' ht')
  | case3 r ih =>
    intro t h
    rw [revert_xml_encoding.eq_3] at h
    rw [Option.map_eq_some'] at h
    obtain ⟨t', ht', rfl⟩ := h
    exact EscapeSpec.gt r t' (ih t' ht')
  | case4 r ih =>
    intro t h
    rw [revert_xml_encoding.eq_4] at h
    rw [Option.map_eq_some'] at h
    obtain ⟨t', ht', rfl⟩ := h
    exact EscapeSpec.amp r t' (ih t' ht')
  | case5 tail h1 h2 h3 =>
    intro t h
    rw [revert_xml_encoding.eq_5 tail h1 h2 h3] at h
    exact absurd h (by simp)
  | case6 c r h1 h2 h3 h4 ih =>
    intro t h
    rw [revert_xml_encoding.eq_6 c r h1 h2 h3 h4] at h
    rw [Option.map_eq_some'] at h
    obtain ⟨t', ht', rfl⟩ := h
    exact EscapeSpec.chr c r t' h4 (ih t' ht')

theorem revert_complete (s t : List Char) (h : EscapeSpec s t) :
    revert_xml_encoding s = some t := by
  induction h with
  | nil => rfl
  | lt s t hsub ih =>
    rw [revert_xml_encoding.eq_2, ih]
    rfl
  | gt s t hsub ih =>
    rw [revert_xml_encoding.eq_3, ih]
    rfl
  | amp s t hsub ih =>
    rw [revert_xml_encoding.eq_4, ih]
    rfl
  | chr c s t hc hsub ih =>
    rw [revert_xml_encoding.eq_6 c s (fun _ hcc _ => absurd hcc hc)
      (fun _ hcc _ => absurd hcc hc) (fun _ hcc _ => absurd hcc hc) hc, ih]
    rfl

/-- C5: `revert_xml_encoding` returns normally (here: `some`) exactly on
inputs where every `&` begins one of `&lt;` `&gt;` `&amp;`, and then the
result substitutes `<` `>` `&` for those escapes with all other characters
copied unchanged; on any other input — an unknown character after `&` or a
truncated escape — it panics (here: `none`), never returning partial or
passed-through output. -/
theorem C5_revert_xml_encoding_spec :
    ∀ s : List Char,
      (∀ t, revert_xml_encoding s = some t ↔ EscapeSpec s t) ∧
      (revert_xml_encoding s = none ↔ ¬ ∃ t, EscapeSpec s t) := by
  intro s
  constructor
  · intro t
    exact ⟨revert_sound s t, revert_complete s t⟩
  · constructor
    · rintro h ⟨t, ht⟩
      rw [revert_complete s t ht] at h
      exact absurd h (by simp)
    · intro h
      cases hr : revert_xml_encoding s with
      | none => rfl
      | some t => exact absurd ⟨t, revert_sound s t hr⟩ h

/-- Witness for C5: decoding `"a&amp;b"` gives `"a&b"`, and decoding the
truncated `"a&lt"` fails. -/
theorem C5_revert_xml_encoding_spec_witness :
    revert_xml_encoding "a&amp;b".data = some "a&b".data ∧
    revert_xml_encoding "a&lt".data = none :=
  ⟨((C5_revert_xml_encoding_spec "a&amp;b".data).1 "a&b".data).mpr
    (show EscapeSpec ('a' :: '&' :: 'a' :: 'm' :: 'p' :: ';' :: 'b' :: [])
        ('a' :: '&' :: 'b' :: []) from
      EscapeSpec.chr 'a' _ _ (by decide)
        (EscapeSpec.amp _ _ (EscapeSpec.chr 'b' _ _ (by decide)
          EscapeSpec.nil))),
   (C5_revert_xml_encoding_spec "a&lt".data).2.mpr (by
    rintro ⟨t, ht⟩
    have := revert_complete _ t ht
    rw [show revert_xml_encoding "a&lt".data = none from by decide] at this
    exact absurd this (by simp))⟩

theorem break_char_append_right (x ws : List Char) (c : Char)
    (b a : List Char) (h : break_on_first_char x c = some (b, a)) :
    break_on_first_char (x ++ ws) c = some (b, a ++ ws) := by
  obtain ⟨rfl, hnb⟩ := break_char_some _ _ _ _ h
  rw [List.append_assoc, List.cons_append]
  exact break_char_append b c (a ++ ws) hnb

theorem break_char_append_none (x ws : List Char) (c : Char)
    (h1 : c ∉ x) (h2 : c ∉ ws) :
    break_on_first_char (x ++ ws) c = none := by
  apply (break_char_none_iff _ _).mpr
  intro hc
  rcases List.mem_append.mp hc with h | h
  · exact h1 h
  · exact h2 h

theorem not_eq_mem_ws (ws : List Char) (hws : ∀ c ∈ ws, isWs c = true) :
    '=' ∉ ws := by
  intro hc
  have := hws '=' hc
  exact absurd this (by decide)

theorem quote_not_mem_ws (q : Char) (hq : q = squote ∨ q = dquote)
    (ws : List Char) (hws : ∀ c ∈ ws, isWs c = true) : q ∉ ws := by
  intro hc
  have := hws q hc
  rcases hq with rfl | rfl <;> exact absurd this (by decide)

theorem trimStart_ws (ws : List Char) (hws : ∀ c ∈ ws, isWs c = true) :
    trimStart ws = [] := by
  show List.dropWhile isWs ws = []
  exact List.dropWhile_eq_nil_iff.mpr hws

theorem attr_tokensAux_ws (g : Nat) (ws : List Char)
    (hws : ∀ c ∈ ws, isWs c = true) :
    TagAttributeIterator.tokensAux g ws = [] := by
  cases g with
  | zero => rfl
  | succ g =>
    cases ws with
    | nil => exact attr_tokensAux_nil _
    | cons w ws' =>
      rw [attr_tokensAux_succ]
      have hbr : break_on_first_char (w :: ws') '=' = none :=
        (break_char_none_iff _ _).mpr (not_eq_mem_ws _ hws)
      have hnext : TagAttributeIterator.next (w :: ws') = (none, []) := by
        unfold TagAttributeIterator.next
        rw [if_neg (by simp), hbr]
      rw [hnext]

theorem attr_tokensAux_none (g : Nat) (s : List Char)
    (h : (TagAttributeIterator.next s).1 = none) :
    TagAttributeIterator.tokensAux g s = [] := by
  cases g with
  | zero => rfl
  | succ g =>
    rw [attr_tokensAux_succ]
    cases hnext : TagAttributeIterator.next s with
    | mk o rest =>
      cases o with
      | none => simp
      | some ta => rw [hnext] at h; simp at h

theorem attr_next_render (k v : List Char) (q : Char) (r : List Char)
    (hq : q = squote ∨ q = dquote) (hk : '=' ∉ k) (hv : q ∉ v) :
    TagAttributeIterator.next (k ++ '=' :: q :: (v ++ q :: r)) =
      (some (TagAttribute.mk k v), trimStart r) := by
  have h1 : break_on_first_char (k ++ '=' :: q :: (v ++ q :: r)) '=' =
      some (k, q :: (v ++ q :: r)) := break_char_append k '=' _ hk
  have h2 : break_on_first_char (v ++ q :: r) q = some (v, r) :=
    break_char_append v q r hv
  have hcond : (decide (q = squote) || decide (q = dquote)) = true := by
    rcases hq with h | h <;> simp [h]
  unfold TagAttributeIterator.next
  rw [if_neg (by simp), h1]
  dsimp only
  rw [if_pos hcond, h2]

theorem quote_cond_false_of_ws (w : Char) (hw : isWs w = true) :
    (decide (w = squote) || decide (w = dquote)) = false := by
  have hs : w ≠ squote := by
    intro h
    subst h
    exact absurd hw (by decide)
  have hd : w ≠ dquote := by
    intro h
    subst h
    exact absurd hw (by decide)
  simp [hs, hd]

theorem attr_next_none_append (x ws : List Char)
    (hws : ∀ c ∈ ws, isWs c = true) (hx : x ≠ [])
    (h : (TagAttributeIterator.next x).1 = none) :
    (TagAttributeIterator.next (x ++ ws)).1 = none := by
  have hxe : ¬ ((x ++ ws).isEmpty = true) := by
    simp [hx]
  unfold TagAttributeIterator.next at h
  split at h
  · next he => exact absurd (List.isEmpty_iff.mp he) hx
  · split at h
    · next heq1 =>
      have hmem := (break_char_none_iff _ _).mp heq1
      have hbr : break_on_first_char (x ++ ws) '=' = none :=
        break_char_append_none x ws '=' hmem (not_eq_mem_ws ws hws)
      unfold TagAttributeIterator.next
      rw [if_neg hxe, hbr]
    · next key rest1 heq1 =>
      obtain ⟨hx1, hkey⟩ := break_char_some _ _ _ _ heq1
      split at h
      · -- rest1 = [] : x = key ++ ['=']
        subst hx1
        have hbr : break_on_first_char ((key ++ ['=']) ++ ws) '=' =
            some (key, ws) := by
          rw [List.append_assoc]
          exact break_char_append key '=' ws hkey
        unfold TagAttributeIterator.next
        rw [if_neg (by simp), hbr]
        dsimp only
        cases ws with
        | nil => rfl
        | cons w ws' =>
          dsimp only
          rw [if_neg]
          simp only [Bool.not_eq_true]
          exact quote_cond_false_of_ws w (hws w (List.mem_cons_self _ _))
      · next q rest2 =>
        subst hx1
        have hbr : break_on_first_char
            ((key ++ '=' :: q :: rest2) ++ ws) '=' =
            some (key, q :: (rest2 ++ ws)) := by
          rw [List.append_assoc, List.cons_append, List.cons_append]
          exact break_char_append key '=' (q :: (rest2 ++ ws)) hkey
        split at h
        · next hqcond =>
          split at h
          · next heq2 =>
            have hq : q = squote ∨ q = dquote := by simpa using hqcond
            have hmem2 := (break_char_none_iff _ _).mp heq2
            have hbr2 : break_on_first_char (rest2 ++ ws) q = none :=
              break_char_append_none rest2 ws q hmem2
                (quote_not_mem_ws q hq ws hws)
            unfold TagAttributeIterator.next
            rw [if_neg (by simp), hbr]
            dsimp only
            rw [if_pos hqcond, hbr2]
          · simp at h
        · next hqcond =>
          unfold TagAttributeIterator.next
          rw [if_neg (by simp), hbr]
          dsimp only
          rw [if_neg hqcond]

theorem attr_tokensAux_append_ws (ws : List Char)
    (hws : ∀ c ∈ ws, isWs c = true) :
    ∀ (f g : Nat) (x : List Char), x.length ≤ f → (x ++ ws).length ≤ g →
    TagAttributeIterator.tokensAux g (x ++ ws) =
      TagAttributeIterator.tokensAux f x := by
  intro f
  induction f with
  | zero =>
    intro g x hf hg
    have hx : x = [] := List.eq_nil_of_length_eq_zero (Nat.le_zero.mp hf)
    subst hx
    rw [List.nil_append, attr_tokensAux_ws g ws hws, attr_tokensAux_nil]
  | succ f ih =>
    intro g x hf hg
    cases hx : x with
    | nil => rw [List.nil_append, attr_tokensAux_ws g ws hws, attr_tokensAux_nil]
    | cons x0 xs =>
      subst hx
      cases g with
      | zero =>
        exact absurd hg (by simp)
      | succ g =>
        cases hnext : TagAttributeIterator.next (x0 :: xs) with
        | mk o rest =>
          cases o with
          | none =>
            have h1 : (TagAttributeIterator.next (x0 :: xs)).1 = none := by
              rw [hnext]
            have h2 := attr_next_none_append (x0 :: xs) ws hws (by simp) h1
            rw [attr_tokensAux_none _ _ h2, attr_tokensAux_none _ _ h1]
          | some ta =>
            obtain ⟨tk, tv⟩ := ta
            obtain ⟨q, rest3, hshape, hrest, hqd, hk, hv⟩ :=
              attr_next_some_shape _ _ _ hnext
            simp only at hshape hk hv
            have hshape2 : (x0 :: xs) ++ ws =
                tk ++ '=' :: q :: (tv ++ q :: (rest3 ++ ws)) := by
              rw [hshape]
              simp [List.append_assoc]
            have hnext2 : TagAttributeIterator.next ((x0 :: xs) ++ ws) =
                (some (TagAttribute.mk tk tv), trimStart (rest3 ++ ws)) := by
              rw [hshape2]
              exact attr_next_render tk tv q (rest3 ++ ws) hqd hk hv
            have hlt := attr_next_shrinks _ _ _ hnext
            subst hrest
            rw [attr_tokensAux_succ, attr_tokensAux_succ, hnext, hnext2]
            dsimp only
            by_cases hemp : trimStart rest3 = []
            · have hempL : trimStart (rest3 ++ ws) = [] := by
                show List.dropWhile isWs (rest3 ++ ws) = []
                rw [List.dropWhile_append, if_pos (by simp [show List.dropWhile
                  isWs rest3 = [] from hemp])]
                exact List.dropWhile_eq_nil_iff.mpr hws
              rw [hempL, hemp, attr_tokensAux_nil, attr_tokensAux_nil]
            · have hsplit : trimStart (rest3 ++ ws) = trimStart rest3 ++ ws := by
                show List.dropWhile isWs (rest3 ++ ws) =
                  List.dropWhile isWs rest3 ++ ws
                rw [List.dropWhile_append,
                  if_neg (by simp [show List.dropWhile isWs rest3 ≠ []
                    from hemp])]
              rw [hsplit]
              congr 1
              apply ih
              · have hle := length_trimStart_le rest3
                simp only [List.length_cons] at hlt hf
                omega
              · have hle := length_trimStart_le rest3
                simp only [List.length_append, List.length_cons] at hlt hg ⊢
                omega

theorem attrsRender_head (s : List Char) (ps : List TagAttribute)
    (h : AttrsRender s ps) : ∀ c t, s = c :: t → isWs c = false := by
  cases h with
  | nil =>
    intro c t hshape
    simp at hshape
  | cons k v q ws s' ps' hq hk hkws hv hws hsub =>
    intro c t hshape
    cases k with
    | nil =>
      simp only [List.nil_append] at hshape
      injection hshape with h1 h2
      rw [← h1]
      decide
    | cons c0 k' =>
      simp only [List.cons_append] at hshape
      injection hshape with h1 h2
      rw [← h1]
      exact hkws c0 (List.mem_cons_self _ _)

theorem attrsRender_trimStart (s : List Char) (ps : List TagAttribute)
    (h : AttrsRender s ps) : trimStart s = s :=
  trimStart_eq_self_of_head s (attrsRender_head s ps h)

theorem attrsRender_tokensAux (s : List Char) (ps : List TagAttribute)
    (h : AttrsRender s ps) :
    ∀ f, s.length ≤ f → TagAttributeIterator.tokensAux f s = ps := by
  induction h with
  | nil =>
    intro f _
    exact attr_tokensAux_nil f
  | cons k v q ws s' ps' hq hk hkws hv hws hsub ih =>
    intro f hf
    simp only [List.length_append, List.length_cons] at hf
    cases f with
    | zero => exact absurd hf (by omega)
    | succ f =>
      rw [attr_tokensAux_succ, attr_next_render k v q (ws ++ s') hq hk hv]
      dsimp only
      rw [trimStart_append_ws ws s' hws, attrsRender_trimStart s' ps' hsub,
        ih f (by omega)]

/-- C1: for every attribute string made of zero or more well-formed
`key="value"` / `key='value'` pairs separated (and optionally surrounded) by
whitespace — captured by `AttrsRender s ps` with arbitrary leading whitespace
`ws0` — iterating a `TagAttributeIterator` constructed over it yields exactly
those pairs in left-to-right order, each value the raw text between its
quotes, then nothing; in particular an empty or whitespace-only string
(`AttrsRender [] []`) yields zero pairs. -/
theorem C1_attribute_pairs_roundtrip (ws0 s : List Char)
    (ps : List TagAttribute)
    (h0 : ∀ c ∈ ws0, isWs c = true) (h : AttrsRender s ps) :
    TagAttributeIterator.tokens (TagAttributeIterator.new (ws0 ++ s)) = ps := by
  have h1 : trimStart (ws0 ++ s) = s := by
    rw [trimStart_append_ws ws0 s h0, attrsRender_trimStart s ps h]
  have hnew : TagAttributeIterator.new (ws0 ++ s) = trimEnd s := by
    show trim (ws0 ++ s) = trimEnd s
    show trimEnd (trimStart (ws0 ++ s)) = trimEnd s
    rw [h1]
  rw [hnew]
  obtain ⟨wse, hdec, hwse⟩ := trimEnd_decomp s
  show TagAttributeIterator.tokensAux (trimEnd s).length (trimEnd s) = ps
  have habs := attr_tokensAux_append_ws wse hwse (trimEnd s).length s.length
    (trimEnd s) (le_refl _) (by rw [← hdec])
  rw [← habs, ← hdec]
  exact attrsRender_tokensAux s ps h s.length (le_refl _)

/-- Witness for C1 at the attribute string made of the pairs `a="1"` and
`b='2'` with leading, separating, and trailing whitespace. -/
theorem C1_attribute_pairs_roundtrip_witness :
    TagAttributeIterator.tokens (TagAttributeIterator.new
      (" ".data ++ ("a".data ++ '=' :: dquote ::
        ("1".data ++ dquote :: (" ".data ++
          ("b".data ++ '=' :: squote ::
            ("2".data ++ squote :: (" ".data ++ ([] : List Char))))))))) =
      [TagAttribute.mk "a".data "1".data, TagAttribute.mk "b".data "2".data] :=
  C1_attribute_pairs_roundtrip " ".data _ _ (by decide)
    (AttrsRender.cons "a".data "1".data dquote " ".data _ _
      (Or.inr rfl) (by decide) (by decide) (by decide) (by decide)
      (AttrsRender.cons "b".data "2".data squote " ".data [] []
        (Or.inl rfl) (by decide) (by decide) (by decide) (by decide)
        AttrsRender.nil))
